import Mathlib

/-!
Verification development for the p2t-rs constrained-Delaunay sweep-line
triangulator.  The Rust sources are shallowly embedded: coordinates are
modelled by exact rationals (the source's `f64` comparisons and sign tests
are exact arithmetic on the represented values; NaN/infinity inputs are
declared the caller's responsibility by the source), machine indices by
`Nat`, fallible or panicking code by `Option`.
-/

namespace P2T

/-- A 2-D vertex, from `shape.rs` `struct Point { x: f64, y: f64 }`. -/
structure Pt where
  x : ℚ
  y : ℚ
  deriving DecidableEq, Repr

/-- Default point, from `shape.rs` `impl Default for Point` (origin). -/
def Pt.origin : Pt := ⟨0, 0⟩

/-! Section: Triple: the `[T; 3]` arrays used by triangles -/

/-- A fixed 3-slot array, modelling the `[PointId; 3]`, `[TriangleId; 3]`
and per-edge flag arrays of the triangle types. -/
structure Triple (α : Type) where
  s0 : α
  s1 : α
  s2 : α
  deriving DecidableEq, Repr

/-- Read slot `i` of a 3-slot array. -/
def Triple.get {α : Type} (t : Triple α) : Fin 3 → α
  | 0 => t.s0
  | 1 => t.s1
  | 2 => t.s2

/-- Write slot `i` of a 3-slot array. -/
def Triple.set {α : Type} (t : Triple α) : Fin 3 → α → Triple α
  | 0, v => ⟨v, t.s1, t.s2⟩
  | 1, v => ⟨t.s0, v, t.s2⟩
  | 2, v => ⟨t.s0, t.s1, v⟩

/-- The three slot values as a multiset. -/
def Triple.toMS (t : Triple ℕ) : Multiset ℕ := {t.s0, t.s1, t.s2}

/-! Section: `shape.rs`: vertex-triple helpers of `InnerTriangle` -/

/-- Embeds `InnerTriangle::point_index`: first slot holding `point`, from
`shape.rs`. -/
def pointIndex (pts : Triple ℕ) (point : ℕ) : Option (Fin 3) :=
  if pts.s0 = point then some 0
  else if pts.s1 = point then some 1
  else if pts.s2 = point then some 2
  else none

/-- Embeds `InnerTriangle::point_cw`: the point clockwise to the given point, from
`shape.rs`; `none` models the `panic!("point not belongs to triangle")`. -/
def pointCW (pts : Triple ℕ) (point : ℕ) : Option ℕ :=
  if point = pts.s0 then some pts.s2
  else if point = pts.s1 then some pts.s0
  else if point = pts.s2 then some pts.s1
  else none

/-- Embeds `InnerTriangle::point_ccw`: the point counter-clockwise to the given
point, from `shape.rs`; `none` models the panic. -/
def pointCCW (pts : Triple ℕ) (point : ℕ) : Option ℕ :=
  if point = pts.s0 then some pts.s1
  else if point = pts.s1 then some pts.s2
  else if point = pts.s2 then some pts.s0
  else none

/-- Embeds `InnerTriangle::edge_index` from `shape.rs`: the slot opposite the edge
`{p, q}`, found through `point_index` and the bit-or trick
`0b01 => 2, 0b11 => 0, 0b10 => 1`. -/
def edgeIndex (pts : Triple ℕ) (p q : ℕ) : Option (Fin 3) :=
  match pointIndex pts p, pointIndex pts q with
  | some pi, some qi =>
    match pi.val ||| qi.val with
    | 1 => some 2
    | 3 => some 0
    | 2 => some 1
    | _ => none
  | _, _ => none

/-- Embeds `InnerTriangle::rotate_cw(o_point, n_point)` from `shape.rs`
lines 287-304: three sequential slot writes in each branch; `none` models
the `panic!("point not belongs to triangle")` of the final branch.
The writes are performed in source order, e.g. for `o = points[0]`:
`points[1] = points[0]; points[0] = points[2]; points[2] = n`. -/
def rotateCW (pts : Triple ℕ) (o n : ℕ) : Option (Triple ℕ) :=
  if o = pts.s0 then some ⟨pts.s2, pts.s0, n⟩
  else if o = pts.s1 then some ⟨n, pts.s0, pts.s1⟩
  else if o = pts.s2 then some ⟨pts.s2, n, pts.s1⟩
  else none

/-! Section: `triangles.rs`: the triangle store's `mark_neighbor` -/

/-- Membership of a point id in a vertex triple. -/
def memT (x : ℕ) (t : Triple ℕ) : Prop := x = t.s0 ∨ x = t.s1 ∨ x = t.s2

instance (x : ℕ) (t : Triple ℕ) : Decidable (memT x t) := by
  unfold memT; infer_instance

/-- Modelled from the spec: the triangle record that
`triangles.rs::mark_neighbor` operates on.  The struct definition itself
is not in this snapshot's `shape.rs` (which holds a newer `InnerTriangle`
packing the two per-edge flags into an attribute byte); fields follow the
spec's data model — a vertex triple, a neighbor triple, per-edge
`constrained` and `delaunay` flags, and the `interior` flag — and the
field accesses performed by `triangles.rs` (`points`, `neighbors`,
`constrained_edge`). -/
structure Triangle where
  points : Triple ℕ
  neighbors : Triple ℕ
  constrained : Triple Bool
  delaunay : Triple Bool
  interior : Bool
  deriving DecidableEq, Repr

/-- Embeds `Triangles::mark_neighbor(left, right)` from `triangles.rs`
lines 98-127, acting on the two borrowed triangle records: probe triangle
`left`'s three edges `(points[1],points[2])`, `(points[0],points[2])`,
`(points[0],points[1])` against `right` via `edge_index`; on the first
hit, write the symmetric neighbor links and the or-combined `constrained`
flag.  When no edge is shared the source debug-asserts and returns with
both triangles unchanged (release behaviour). -/
def markNeighbor (leftId : ℕ) (left : Triangle) (rightId : ℕ) (right : Triangle) :
    Triangle × Triangle :=
  let found : Option (Fin 3 × Fin 3) :=
    match edgeIndex right.points left.points.s1 left.points.s2 with
    | some rei => some (0, rei)
    | none =>
      match edgeIndex right.points left.points.s0 left.points.s2 with
      | some rei => some (1, rei)
      | none =>
        match edgeIndex right.points left.points.s0 left.points.s1 with
        | some rei => some (2, rei)
        | none => none
  match found with
  | none => (left, right)
  | some (lei, rei) =>
    let isConstrained := left.constrained.get lei || right.constrained.get rei
    ({ left with
        neighbors := left.neighbors.set lei rightId
        constrained := left.constrained.set lei isConstrained },
     { right with
        neighbors := right.neighbors.set rei leftId
        constrained := right.constrained.set rei isConstrained })

/-! Subsection: Triple get/set frame lemmas -/

theorem Triple.get_set_self {α : Type} (t : Triple α) (i : Fin 3) (v : α) :
    (t.set i v).get i = v := by
  fin_cases i <;> rfl

theorem Triple.get_set_ne {α : Type} (t : Triple α) (i j : Fin 3) (v : α)
    (h : j ≠ i) : (t.set i v).get j = t.get j := by
  fin_cases i <;> fin_cases j <;> simp_all [Triple.set, Triple.get]

/-! Subsection: `pointIndex` / `edgeIndex` helper lemmas -/

theorem pointIndex_eq_none (t : Triple ℕ) (x : ℕ) (h : ¬ memT x t) :
    pointIndex t x = none := by
  unfold memT at h
  push_neg at h
  obtain ⟨h0, h1, h2⟩ := h
  unfold pointIndex
  rw [if_neg (fun he => h0 he.symm), if_neg (fun he => h1 he.symm),
    if_neg (fun he => h2 he.symm)]

theorem edgeIndex_none_left (t : Triple ℕ) (p q : ℕ)
    (h : pointIndex t p = none) : edgeIndex t p q = none := by
  unfold edgeIndex
  rw [h]

theorem edgeIndex_none_right (t : Triple ℕ) (p q : ℕ)
    (h : pointIndex t q = none) : edgeIndex t p q = none := by
  unfold edgeIndex
  rw [h]
  rcases pointIndex t p with _ | _ <;> rfl

/-- For a triangle with pairwise-distinct vertices, `edge_index` of two
distinct member vertices finds the slot opposite their shared edge. -/
theorem edgeIndex_of_mem (t : Triple ℕ)
    (h01 : t.s0 ≠ t.s1) (h02 : t.s0 ≠ t.s2) (h12 : t.s1 ≠ t.s2)
    (u v : ℕ) (huv : u ≠ v) (hu : memT u t) (hv : memT v t) :
    ∃ k, edgeIndex t u v = some k ∧ t.get k ≠ u ∧ t.get k ≠ v := by
  have p0 : pointIndex t t.s0 = some 0 := by simp [pointIndex]
  have p1 : pointIndex t t.s1 = some 1 := by simp [pointIndex, h01]
  have p2 : pointIndex t t.s2 = some 2 := by simp [pointIndex, h02, h12]
  rcases hu with hu | hu | hu <;> rcases hv with hv | hv | hv <;> subst hu <;> subst hv
  · exact absurd rfl huv
  · exact ⟨2, by unfold edgeIndex; rw [p0, p1],
      by show t.s2 ≠ t.s0; exact Ne.symm h02, by show t.s2 ≠ t.s1; exact Ne.symm h12⟩
  · exact ⟨1, by unfold edgeIndex; rw [p0, p2],
      by show t.s1 ≠ t.s0; exact Ne.symm h01, by show t.s1 ≠ t.s2; exact h12⟩
  · exact ⟨2, by unfold edgeIndex; rw [p1, p0],
      by show t.s2 ≠ t.s1; exact Ne.symm h12, by show t.s2 ≠ t.s0; exact Ne.symm h02⟩
  · exact absurd rfl huv
  · exact ⟨0, by unfold edgeIndex; rw [p1, p2],
      by show t.s0 ≠ t.s1; exact h01, by show t.s0 ≠ t.s2; exact h02⟩
  · exact ⟨1, by unfold edgeIndex; rw [p2, p0],
      by show t.s1 ≠ t.s2; exact h12, by show t.s1 ≠ t.s0; exact Ne.symm h01⟩
  · exact ⟨0, by unfold edgeIndex; rw [p2, p1],
      by show t.s0 ≠ t.s2; exact h02, by show t.s0 ≠ t.s1; exact h01⟩
  · exact absurd rfl huv

/-- The two records produced by a successful `mark_neighbor` hit at slots
`(lei, rei)`. -/
def mnResult (leftId : ℕ) (left : Triangle) (rightId : ℕ) (right : Triangle)
    (lei rei : Fin 3) : Triangle × Triangle :=
  let isConstrained := left.constrained.get lei || right.constrained.get rei
  (⟨left.points, left.neighbors.set lei rightId,
      left.constrained.set lei isConstrained, left.delaunay, left.interior⟩,
   ⟨right.points, right.neighbors.set rei leftId,
      right.constrained.set rei isConstrained, right.delaunay, right.interior⟩)

theorem markNeighbor_eq_of_hit0 (aId bId : ℕ) (ta tb : Triangle) (rei : Fin 3)
    (h1 : edgeIndex tb.points ta.points.s1 ta.points.s2 = some rei) :
    markNeighbor aId ta bId tb = mnResult aId ta bId tb 0 rei := by
  unfold markNeighbor
  rw [h1]
  rfl

theorem markNeighbor_eq_of_hit1 (aId bId : ℕ) (ta tb : Triangle) (rei : Fin 3)
    (h1 : edgeIndex tb.points ta.points.s1 ta.points.s2 = none)
    (h2 : edgeIndex tb.points ta.points.s0 ta.points.s2 = some rei) :
    markNeighbor aId ta bId tb = mnResult aId ta bId tb 1 rei := by
  unfold markNeighbor
  rw [h1, h2]
  rfl

theorem markNeighbor_eq_of_hit2 (aId bId : ℕ) (ta tb : Triangle) (rei : Fin 3)
    (h1 : edgeIndex tb.points ta.points.s1 ta.points.s2 = none)
    (h2 : edgeIndex tb.points ta.points.s0 ta.points.s2 = none)
    (h3 : edgeIndex tb.points ta.points.s0 ta.points.s1 = some rei) :
    markNeighbor aId ta bId tb = mnResult aId ta bId tb 2 rei := by
  unfold markNeighbor
  rw [h1, h2, h3]
  rfl

/-- The claim-level effect and frame facts, read off a reduced
`mark_neighbor` result. -/
theorem mn_post (aId bId : ℕ) (ta tb : Triangle) (lei rei : Fin 3)
    (heq : markNeighbor aId ta bId tb = mnResult aId ta bId tb lei rei) :
    ((markNeighbor aId ta bId tb).1.neighbors.get lei = bId ∧
     (markNeighbor aId ta bId tb).2.neighbors.get rei = aId) ∧
    ((markNeighbor aId ta bId tb).1.constrained.get lei
        = (ta.constrained.get lei || tb.constrained.get rei) ∧
     (markNeighbor aId ta bId tb).2.constrained.get rei
        = (ta.constrained.get lei || tb.constrained.get rei)) ∧
    ((markNeighbor aId ta bId tb).1.points = ta.points ∧
     (markNeighbor aId ta bId tb).1.delaunay = ta.delaunay ∧
     (markNeighbor aId ta bId tb).1.interior = ta.interior ∧
     ∀ i : Fin 3, i ≠ lei →
       (markNeighbor aId ta bId tb).1.neighbors.get i = ta.neighbors.get i ∧
       (markNeighbor aId ta bId tb).1.constrained.get i = ta.constrained.get i) ∧
    ((markNeighbor aId ta bId tb).2.points = tb.points ∧
     (markNeighbor aId ta bId tb).2.delaunay = tb.delaunay ∧
     (markNeighbor aId ta bId tb).2.interior = tb.interior ∧
     ∀ i : Fin 3, i ≠ rei →
       (markNeighbor aId ta bId tb).2.neighbors.get i = tb.neighbors.get i ∧
       (markNeighbor aId ta bId tb).2.constrained.get i = tb.constrained.get i) := by
  rw [heq]
  unfold mnResult
  refine ⟨⟨?_, ?_⟩, ⟨?_, ?_⟩, ⟨rfl, rfl, rfl, ?_⟩, ⟨rfl, rfl, rfl, ?_⟩⟩
  · exact Triple.get_set_self _ _ _
  · exact Triple.get_set_self _ _ _
  · exact Triple.get_set_self _ _ _
  · exact Triple.get_set_self _ _ _
  · intro i hi
    exact ⟨Triple.get_set_ne _ _ _ _ hi, Triple.get_set_ne _ _ _ _ hi⟩
  · intro i hi
    exact ⟨Triple.get_set_ne _ _ _ _ hi, Triple.get_set_ne _ _ _ _ hi⟩

/-- C6.  For two stored triangles sharing exactly one vertex pair `{u,v}`
(each with pairwise-distinct vertices, at distinct store slots),
`mark_neighbor(a, b)` writes `b` into `a`'s neighbor slot opposite the
shared edge and symmetrically `a` into `b`'s, sets the `constrained` flag
of that edge on both triangles to the disjunction of the two prior flags,
and leaves every other field — vertex triples, the other neighbor slots,
the other `constrained` flags, the `delaunay` flags, `interior` —
unchanged. -/
theorem c6_mark_neighbor (aId bId : ℕ) (ta tb : Triangle) (u v : ℕ)
    (_hIds : aId ≠ bId)
    (ha01 : ta.points.s0 ≠ ta.points.s1) (ha02 : ta.points.s0 ≠ ta.points.s2)
    (ha12 : ta.points.s1 ≠ ta.points.s2)
    (hb01 : tb.points.s0 ≠ tb.points.s1) (hb02 : tb.points.s0 ≠ tb.points.s2)
    (hb12 : tb.points.s1 ≠ tb.points.s2)
    (huv : u ≠ v)
    (hua : memT u ta.points) (hva : memT v ta.points)
    (hub : memT u tb.points) (hvb : memT v tb.points)
    (honly : ∀ x, memT x ta.points → memT x tb.points → x = u ∨ x = v) :
    ∃ lei rei : Fin 3,
      ta.points.get lei ≠ u ∧ ta.points.get lei ≠ v ∧
      tb.points.get rei ≠ u ∧ tb.points.get rei ≠ v ∧
      ((markNeighbor aId ta bId tb).1.neighbors.get lei = bId ∧
       (markNeighbor aId ta bId tb).2.neighbors.get rei = aId) ∧
      ((markNeighbor aId ta bId tb).1.constrained.get lei
          = (ta.constrained.get lei || tb.constrained.get rei) ∧
       (markNeighbor aId ta bId tb).2.constrained.get rei
          = (ta.constrained.get lei || tb.constrained.get rei)) ∧
      ((markNeighbor aId ta bId tb).1.points = ta.points ∧
       (markNeighbor aId ta bId tb).1.delaunay = ta.delaunay ∧
       (markNeighbor aId ta bId tb).1.interior = ta.interior ∧
       ∀ i : Fin 3, i ≠ lei →
         (markNeighbor aId ta bId tb).1.neighbors.get i = ta.neighbors.get i ∧
         (markNeighbor aId ta bId tb).1.constrained.get i = ta.constrained.get i) ∧
      ((markNeighbor aId ta bId tb).2.points = tb.points ∧
       (markNeighbor aId ta bId tb).2.delaunay = tb.delaunay ∧
       (markNeighbor aId ta bId tb).2.interior = tb.interior ∧
       ∀ i : Fin 3, i ≠ rei →
         (markNeighbor aId ta bId tb).2.neighbors.get i = tb.neighbors.get i ∧
         (markNeighbor aId ta bId tb).2.constrained.get i = tb.constrained.get i) := by
  rcases hua with hu | hu | hu <;> rcases hva with hv | hv | hv <;> subst hu <;> subst hv
  -- u = s0, v = s0: impossible
  · exact absurd rfl huv
  -- shared pair {s0, s1}, opposite slot 2
  · have hthird : ¬ memT ta.points.s2 tb.points := by
      intro hm
      rcases honly _ (Or.inr (Or.inr rfl)) hm with h | h
      · exact ha02 h.symm
      · exact ha12 h.symm
    have hn := pointIndex_eq_none tb.points ta.points.s2 hthird
    obtain ⟨rei, hsome, hr1, hr2⟩ :=
      edgeIndex_of_mem tb.points hb01 hb02 hb12 ta.points.s0 ta.points.s1 ha01 hub hvb
    have heq := markNeighbor_eq_of_hit2 aId bId ta tb rei
      (edgeIndex_none_right _ _ _ hn) (edgeIndex_none_right _ _ _ hn) hsome
    exact ⟨2, rei, Ne.symm ha02, Ne.symm ha12, hr1, hr2,
      mn_post aId bId ta tb 2 rei heq⟩
  -- shared pair {s0, s2}, opposite slot 1
  · have hthird : ¬ memT ta.points.s1 tb.points := by
      intro hm
      rcases honly _ (Or.inr (Or.inl rfl)) hm with h | h
      · exact ha01 h.symm
      · exact ha12 h
    have hn := pointIndex_eq_none tb.points ta.points.s1 hthird
    obtain ⟨rei, hsome, hr1, hr2⟩ :=
      edgeIndex_of_mem tb.points hb01 hb02 hb12 ta.points.s0 ta.points.s2 ha02 hub hvb
    have heq := markNeighbor_eq_of_hit1 aId bId ta tb rei
      (edgeIndex_none_left _ _ _ hn) hsome
    exact ⟨1, rei, Ne.symm ha01, ha12, hr1, hr2,
      mn_post aId bId ta tb 1 rei heq⟩
  -- shared pair {s1, s0}, opposite slot 2
  · have hthird : ¬ memT ta.points.s2 tb.points := by
      intro hm
      rcases honly _ (Or.inr (Or.inr rfl)) hm with h | h
      · exact ha12 h.symm
      · exact ha02 h.symm
    have hn := pointIndex_eq_none tb.points ta.points.s2 hthird
    obtain ⟨rei, hsome, hr1, hr2⟩ :=
      edgeIndex_of_mem tb.points hb01 hb02 hb12 ta.points.s0 ta.points.s1 ha01 hvb hub
    have heq := markNeighbor_eq_of_hit2 aId bId ta tb rei
      (edgeIndex_none_right _ _ _ hn) (edgeIndex_none_right _ _ _ hn) hsome
    exact ⟨2, rei, Ne.symm ha12, Ne.symm ha02, hr2, hr1,
      mn_post aId bId ta tb 2 rei heq⟩
  -- u = s1, v = s1: impossible
  · exact absurd rfl huv
  -- shared pair {s1, s2}, opposite slot 0
  · have hthird : ¬ memT ta.points.s0 tb.points := by
      intro hm
      rcases honly _ (Or.inl rfl) hm with h | h
      · exact ha01 h
      · exact ha02 h
    have hn := pointIndex_eq_none tb.points ta.points.s0 hthird
    obtain ⟨rei, hsome, hr1, hr2⟩ :=
      edgeIndex_of_mem tb.points hb01 hb02 hb12 ta.points.s1 ta.points.s2 ha12 hub hvb
    have heq := markNeighbor_eq_of_hit0 aId bId ta tb rei hsome
    exact ⟨0, rei, ha01, ha02, hr1, hr2,
      mn_post aId bId ta tb 0 rei heq⟩
  -- shared pair {s2, s0}, opposite slot 1
  · have hthird : ¬ memT ta.points.s1 tb.points := by
      intro hm
      rcases honly _ (Or.inr (Or.inl rfl)) hm with h | h
      · exact ha12 h
      · exact ha01 h.symm
    have hn := pointIndex_eq_none tb.points ta.points.s1 hthird
    obtain ⟨rei, hsome, hr1, hr2⟩ :=
      edgeIndex_of_mem tb.points hb01 hb02 hb12 ta.points.s0 ta.points.s2 ha02 hvb hub
    have heq := markNeighbor_eq_of_hit1 aId bId ta tb rei
      (edgeIndex_none_left _ _ _ hn) hsome
    exact ⟨1, rei, ha12, Ne.symm ha01, hr2, hr1,
      mn_post aId bId ta tb 1 rei heq⟩
  -- shared pair {s2, s1}, opposite slot 0
  · have hthird : ¬ memT ta.points.s0 tb.points := by
      intro hm
      rcases honly _ (Or.inl rfl) hm with h | h
      · exact ha02 h
      · exact ha01 h
    have hn := pointIndex_eq_none tb.points ta.points.s0 hthird
    obtain ⟨rei, hsome, hr1, hr2⟩ :=
      edgeIndex_of_mem tb.points hb01 hb02 hb12 ta.points.s1 ta.points.s2 ha12 hvb hub
    have heq := markNeighbor_eq_of_hit0 aId bId ta tb rei hsome
    exact ⟨0, rei, ha02, ha01, hr2, hr1,
      mn_post aId bId ta tb 0 rei heq⟩
  -- u = s2, v = s2: impossible
  · exact absurd rfl huv

/-- Embeds `TriangleId::INVALID` from `triangles.rs`: `usize::MAX` (64-bit). -/
def invalidId : ℕ := 2 ^ 64 - 1

/-- First triangle of the `triangles.rs` unit test `test_triangles`:
vertices `(p0, p1, p2)`, fresh store state. -/
def triA : Triangle :=
  ⟨⟨0, 1, 2⟩, ⟨invalidId, invalidId, invalidId⟩,
   ⟨false, false, false⟩, ⟨false, false, false⟩, false⟩

/-- Second triangle of the same unit test: vertices `(p1, p2, p3)`. -/
def triB : Triangle :=
  ⟨⟨1, 2, 3⟩, ⟨invalidId, invalidId, invalidId⟩,
   ⟨false, false, false⟩, ⟨false, false, false⟩, false⟩

/-- C6 witness: the theorem applied to the two triangles of the source's
own unit test (`test_triangles`), shared edge `{1, 2}`. -/
theorem c6_witness :
    ∃ lei rei : Fin 3,
      triA.points.get lei ≠ 1 ∧ triA.points.get lei ≠ 2 ∧
      triB.points.get rei ≠ 1 ∧ triB.points.get rei ≠ 2 ∧
      ((markNeighbor 0 triA 1 triB).1.neighbors.get lei = 1 ∧
       (markNeighbor 0 triA 1 triB).2.neighbors.get rei = 0) ∧
      ((markNeighbor 0 triA 1 triB).1.constrained.get lei
          = (triA.constrained.get lei || triB.constrained.get rei) ∧
       (markNeighbor 0 triA 1 triB).2.constrained.get rei
          = (triA.constrained.get lei || triB.constrained.get rei)) ∧
      ((markNeighbor 0 triA 1 triB).1.points = triA.points ∧
       (markNeighbor 0 triA 1 triB).1.delaunay = triA.delaunay ∧
       (markNeighbor 0 triA 1 triB).1.interior = triA.interior ∧
       ∀ i : Fin 3, i ≠ lei →
         (markNeighbor 0 triA 1 triB).1.neighbors.get i = triA.neighbors.get i ∧
         (markNeighbor 0 triA 1 triB).1.constrained.get i = triA.constrained.get i) ∧
      ((markNeighbor 0 triA 1 triB).2.points = triB.points ∧
       (markNeighbor 0 triA 1 triB).2.delaunay = triB.delaunay ∧
       (markNeighbor 0 triA 1 triB).2.interior = triB.interior ∧
       ∀ i : Fin 3, i ≠ rei →
         (markNeighbor 0 triA 1 triB).2.neighbors.get i = triB.neighbors.get i ∧
         (markNeighbor 0 triA 1 triB).2.constrained.get i = triB.constrained.get i) :=
  c6_mark_neighbor 0 1 triA triB 1 2 (by decide) (by decide) (by decide)
    (by decide) (by decide) (by decide) (by decide) (by decide)
    (by decide) (by decide) (by decide) (by decide)
    (by
      intro x h1 h2
      simp [triA, triB, memT] at h1 h2
      omega)

/-! Section: `utils.rs`: the angle predicates

`utils.rs::angle(o, a, b)` computes `x.atan2(y)` with
`x = dax*dby - day*dbx` (cross) and `y = dax*dbx + day*dby` (dot);
the result is the polar angle of the point `(y, x)`, i.e.
`Complex.arg (y + x*I)`.  The two comparisons the sweeper performs on it
(`> π/2` and `< 0`) are decided exactly by sign conditions on `(x, y)`;
theorems `angleExceeds90_iff` and `angleIsNegative_iff` below prove the
two decision procedures equal to the real-valued comparisons.
(`f64::atan2` differs from `arg` only on IEEE signed-zero inputs, which
do not exist in `ℚ`.) -/

/-- Cross component `x = dax*dby - day*dbx` of `utils.rs::angle(o, a, b)`. -/
def angleCross (o a b : Pt) : ℚ :=
  (a.x - o.x) * (b.y - o.y) - (a.y - o.y) * (b.x - o.x)

/-- Dot component `y = dax*dbx + day*dby` of `utils.rs::angle(o, a, b)`. -/
def angleDot (o a b : Pt) : ℚ :=
  (a.x - o.x) * (b.x - o.x) + (a.y - o.y) * (b.y - o.y)

/-- Embeds `Angle::exceeds_90_degree` from `utils.rs` (`angle > FRAC_PI_2`),
decided exactly by the sign test of `angleExceeds90_iff`. -/
def angleExceeds90 (o a b : Pt) : Bool :=
  decide (angleDot o a b < 0 ∧ 0 ≤ angleCross o a b)

/-- Embeds `Angle::is_negative` from `utils.rs` (`angle < 0`), decided exactly
by the sign test of `angleIsNegative_iff`. -/
def angleIsNegative (o a b : Pt) : Bool :=
  decide (angleCross o a b < 0)

/-- Quadrant characterization of `arg > π/2`. -/
theorem pi_div_two_lt_arg_iff (z : ℂ) :
    Real.pi / 2 < z.arg ↔ z.re < 0 ∧ 0 ≤ z.im := by
  constructor
  · intro h
    have h1 : ¬ (z.arg < Real.pi / 2) := not_lt.mpr h.le
    rw [Complex.arg_lt_pi_div_two_iff] at h1
    push_neg at h1
    obtain ⟨hre, him, hz⟩ := h1
    refine ⟨?_, him⟩
    rcases lt_or_eq_of_le hre with hre' | hre'
    · exact hre'
    · exfalso
      have him' : 0 < z.im := by
        rcases lt_or_eq_of_le him with h' | h'
        · exact h'
        · exact absurd (Complex.ext_iff.mpr ⟨by simpa using hre', by simpa using h'.symm⟩) hz
      have harg : z.arg = Real.pi / 2 := Complex.arg_eq_pi_div_two_iff.mpr ⟨hre', him'⟩
      rw [harg] at h
      exact lt_irrefl _ h
  · rintro ⟨hre, him⟩
    have hz : z ≠ 0 := by
      intro h0
      rw [h0] at hre
      simp at hre
    have hle : Real.pi / 2 ≤ z.arg := by
      by_contra hlt
      push_neg at hlt
      rcases Complex.arg_lt_pi_div_two_iff.mp hlt with h' | h' | h'
      · exact absurd h' (not_lt.mpr hre.le)
      · exact absurd h' (not_lt.mpr him)
      · exact hz h'
    rcases lt_or_eq_of_le hle with h' | h'
    · exact h'
    · exact absurd (Complex.arg_eq_pi_div_two_iff.mp h'.symm).1 hre.ne

/-- The decision procedure for `Angle::exceeds_90_degree` agrees with the
exact real comparison `atan2(cross, dot) > π/2`. -/
theorem angleExceeds90_iff (o a b : Pt) :
    angleExceeds90 o a b = true ↔
      Real.pi / 2 < Complex.arg ⟨(angleDot o a b : ℝ), (angleCross o a b : ℝ)⟩ := by
  rw [pi_div_two_lt_arg_iff]
  show _ ↔ ((angleDot o a b : ℝ) < 0 ∧ (0 : ℝ) ≤ (angleCross o a b : ℝ))
  simp only [angleExceeds90, decide_eq_true_eq]
  constructor
  · rintro ⟨h1, h2⟩
    exact ⟨by exact_mod_cast h1, by exact_mod_cast h2⟩
  · rintro ⟨h1, h2⟩
    exact ⟨by exact_mod_cast h1, by exact_mod_cast h2⟩

/-- The decision procedure for `Angle::is_negative` agrees with the exact
real comparison `atan2(cross, dot) < 0`. -/
theorem angleIsNegative_iff (o a b : Pt) :
    angleIsNegative o a b = true ↔
      Complex.arg ⟨(angleDot o a b : ℝ), (angleCross o a b : ℝ)⟩ < 0 := by
  rw [Complex.arg_neg_iff]
  show _ ↔ ((angleCross o a b : ℝ) < 0)
  simp only [angleIsNegative, decide_eq_true_eq]
  constructor
  · intro h1
    exact_mod_cast h1
  · intro h1
    exact_mod_cast h1

/-! Section: `advancing_front/vec_backed.rs`: the vector-backed front

The front is a vector of `(PointKey, NodeInner)` pairs kept sorted by the
key's `(x, y)`-lexicographic order (`PointKey::partial_cmp`: compare `x`,
then `y`).  `slice::binary_search_by_key` on such a sorted,
duplicate-free vector returns `Ok(i)` with `i` the position of the key
when present, and otherwise `Err(i)` with `i` the insertion index — the
number of keys below the query; `bsIdx` models exactly that contract. -/

/-- The `(x, y)`-lexicographic strict order of `PointKey`. -/
def ltXY (p q : Pt) : Prop := p.x < q.x ∨ (p.x = q.x ∧ p.y < q.y)

instance (p q : Pt) : Decidable (ltXY p q) := by
  unfold ltXY; infer_instance

/-- A front entry: key point, `NodeInner`'s point id and responsible
triangle (`None` only on the rightmost node). -/
structure FrontNode where
  key : Pt
  pointId : ℕ
  triangle : Option ℕ
  deriving DecidableEq, Repr

/-- Embeds `slice::binary_search_by_key` on the key-sorted node vector. -/
def bsIdx (front : List FrontNode) (key : Pt) : ℕ ⊕ ℕ :=
  match front.findIdx? (fun n => decide (n.key = key)) with
  | some i => Sum.inl i
  | none => Sum.inr (front.countP (fun n => decide (ltXY n.key key)))

/-- Embeds `AdvancingFrontVec::locate_next_node` from `vec_backed.rs`
lines 235-248: `Ok(idx) => idx + 1, Err(idx) => idx`, then a bounds
check. -/
def locateNextNode (front : List FrontNode) (point : Pt) : Option FrontNode :=
  match bsIdx front point with
  | Sum.inl i => front[i + 1]?
  | Sum.inr i => front[i]?

/-- Embeds `AdvancingFrontVec::locate_prev_node` from `vec_backed.rs`
lines 265-281: `Ok(idx) | Err(idx) if idx > 0 => idx - 1`, otherwise
`None`, then a bounds check. -/
def locatePrevNode (front : List FrontNode) (point : Pt) : Option FrontNode :=
  match bsIdx front point with
  | Sum.inl i => if 0 < i then front[i - 1]? else none
  | Sum.inr i => if 0 < i then front[i - 1]? else none

/-- Embeds `AdvancingFrontVec::delete` from `vec_backed.rs`: remove the node at
the `Ok` index, keep the vector unchanged on `Err`. -/
def deleteKey (front : List FrontNode) (point : Pt) : List FrontNode :=
  match bsIdx front point with
  | Sum.inl i => front.eraseIdx i
  | Sum.inr _ => front

/-! Subsection: Order lemmas for `ltXY` -/

theorem ltXY_irrefl (p : Pt) : ¬ ltXY p p := by
  unfold ltXY
  rintro (h | ⟨-, h⟩) <;> exact lt_irrefl _ h

theorem ltXY_trans {p q r : Pt} (h1 : ltXY p q) (h2 : ltXY q r) : ltXY p r := by
  unfold ltXY at *
  rcases h1 with h1 | ⟨he1, h1⟩ <;> rcases h2 with h2 | ⟨he2, h2⟩
  · exact Or.inl (h1.trans h2)
  · exact Or.inl (he2 ▸ h1)
  · exact Or.inl (he1 ▸ h2)
  · exact Or.inr ⟨he1.trans he2, h1.trans h2⟩

theorem ltXY_asymm {p q : Pt} (h1 : ltXY p q) : ¬ ltXY q p :=
  fun h2 => ltXY_irrefl p (ltXY_trans h1 h2)

theorem ltXY_total {p q : Pt} (h : p ≠ q) : ltXY p q ∨ ltXY q p := by
  unfold ltXY
  rcases lt_trichotomy p.x q.x with hx | hx | hx
  · exact Or.inl (Or.inl hx)
  · rcases lt_trichotomy p.y q.y with hy | hy | hy
    · exact Or.inl (Or.inr ⟨hx, hy⟩)
    · exact absurd (by cases p; cases q; simp_all) h
    · exact Or.inr (Or.inr ⟨hx.symm, hy⟩)
  · exact Or.inr (Or.inl hx)

/-! Subsection: Binary-search characterization on an absent key -/

theorem findIdx?_none_of_absent (front : List FrontNode) (p : Pt) (i : ℕ)
    (habs : ∀ n ∈ front, n.key ≠ p) :
    front.findIdx? (fun n => decide (n.key = p)) i = none := by
  induction front generalizing i with
  | nil => rfl
  | cons n rest ih =>
    rw [List.findIdx?_cons]
    rw [if_neg (by simpa using habs n (List.mem_cons_self n rest))]
    exact ih (i + 1) (fun m hm => habs m (List.mem_cons_of_mem n hm))

theorem locateNext_eq_get (front : List FrontNode) (p : Pt)
    (habs : ∀ n ∈ front, n.key ≠ p) :
    locateNextNode front p = front[front.countP (fun n => decide (ltXY n.key p))]? := by
  unfold locateNextNode bsIdx
  rw [findIdx?_none_of_absent front p 0 habs]

theorem locatePrev_eq_get (front : List FrontNode) (p : Pt)
    (habs : ∀ n ∈ front, n.key ≠ p) :
    locatePrevNode front p =
      (if 0 < front.countP (fun n => decide (ltXY n.key p)) then
        front[front.countP (fun n => decide (ltXY n.key p)) - 1]?
      else none) := by
  unfold locatePrevNode bsIdx
  rw [findIdx?_none_of_absent front p 0 habs]

/-- Successor behaviour of `locate_next_node` on a key not in the front:
the returned node is the one with the least key strictly greater than the
query (`none` when no key is greater). -/
theorem locateNext_spec (front : List FrontNode) (p : Pt)
    (hs : List.Pairwise (fun m n => ltXY m.key n.key) front)
    (habs : ∀ n ∈ front, n.key ≠ p) :
    (∀ nd, locateNextNode front p = some nd →
       nd ∈ front ∧ ltXY p nd.key ∧
       ∀ m ∈ front, ltXY p m.key → ¬ ltXY m.key nd.key) ∧
    (locateNextNode front p = none → ∀ m ∈ front, ¬ ltXY p m.key) := by
  induction front with
  | nil => exact ⟨fun nd h => by simp [locateNextNode, bsIdx] at h, fun _ m hm => by simp at hm⟩
  | cons n rest ih =>
    have hn := List.pairwise_cons.mp hs
    have habs' : ∀ m ∈ rest, m.key ≠ p := fun m hm => habs m (List.mem_cons_of_mem n hm)
    have hnp : n.key ≠ p := habs n (List.mem_cons_self n rest)
    rw [locateNext_eq_get _ _ habs]
    by_cases hlt : ltXY n.key p
    · -- head below the query: skip it
      have hc : List.countP (fun n => decide (ltXY n.key p)) (n :: rest)
          = List.countP (fun n => decide (ltXY n.key p)) rest + 1 := by
        rw [List.countP_cons, if_pos (by simpa using hlt)]
      rw [hc, List.getElem?_cons_succ, ← locateNext_eq_get rest p habs']
      obtain ⟨ihs, ihn⟩ := ih hn.2 habs'
      refine ⟨fun nd h => ?_, fun h m hm hpm => ?_⟩
      · obtain ⟨hmem, hgt, hmin⟩ := ihs nd h
        refine ⟨List.mem_cons_of_mem n hmem, hgt, fun m hm hpm => ?_⟩
        rcases List.mem_cons.mp hm with rfl | hm'
        · exact absurd hpm (ltXY_asymm hlt)
        · exact hmin m hm' hpm
      · rcases List.mem_cons.mp hm with rfl | hm'
        · exact ltXY_asymm hlt hpm
        · exact ihn h m hm' hpm
    · -- head at or above the query: it is the successor
      have hpn : ltXY p n.key := (ltXY_total (Ne.symm hnp)).resolve_right hlt
      have hc : List.countP (fun n => decide (ltXY n.key p)) (n :: rest) = 0 := by
        rw [List.countP_eq_zero]
        intro m hm
        rcases List.mem_cons.mp hm with rfl | hm'
        · simpa using hlt
        · simpa using ltXY_asymm (ltXY_trans hpn (hn.1 m hm'))
      rw [hc, List.getElem?_cons_zero]
      refine ⟨fun nd h => ?_, fun h => by simp at h⟩
      obtain rfl : n = nd := by simpa using h
      refine ⟨List.mem_cons_self n rest, hpn, fun m hm _ => ?_⟩
      rcases List.mem_cons.mp hm with rfl | hm'
      · exact ltXY_irrefl m.key
      · exact ltXY_asymm (hn.1 m hm')

/-- Predecessor behaviour of `locate_prev_node` on a key not in the
front: the returned node is the one with the greatest key strictly
smaller than the query (`none` when no key is smaller). -/
theorem locatePrev_spec (front : List FrontNode) (p : Pt)
    (hs : List.Pairwise (fun m n => ltXY m.key n.key) front)
    (habs : ∀ n ∈ front, n.key ≠ p) :
    (∀ nd, locatePrevNode front p = some nd →
       nd ∈ front ∧ ltXY nd.key p ∧
       ∀ m ∈ front, ltXY m.key p → ¬ ltXY nd.key m.key) ∧
    (locatePrevNode front p = none → ∀ m ∈ front, ¬ ltXY m.key p) := by
  induction front with
  | nil => exact ⟨fun nd h => by simp [locatePrevNode, bsIdx] at h, fun _ m hm => by simp at hm⟩
  | cons n rest ih =>
    have hn := List.pairwise_cons.mp hs
    have habs' : ∀ m ∈ rest, m.key ≠ p := fun m hm => habs m (List.mem_cons_of_mem n hm)
    have hnp : n.key ≠ p := habs n (List.mem_cons_self n rest)
    rw [locatePrev_eq_get _ _ habs]
    by_cases hlt : ltXY n.key p
    · have hc : List.countP (fun n => decide (ltXY n.key p)) (n :: rest)
          = List.countP (fun n => decide (ltXY n.key p)) rest + 1 := by
        rw [List.countP_cons, if_pos (by simpa using hlt)]
      rw [hc]
      rw [if_pos (Nat.succ_pos _)]
      rcases Nat.eq_zero_or_pos (List.countP (fun n => decide (ltXY n.key p)) rest)
        with hz | hpos
      · -- no key of the tail is below the query: the head is the floor
        rw [hz]
        rw [List.getElem?_cons_zero]
        refine ⟨fun nd h => ?_, fun h => by simp at h⟩
        obtain rfl : n = nd := by simpa using h
        refine ⟨List.mem_cons_self n rest, hlt, fun m hm hmp => ?_⟩
        rcases List.mem_cons.mp hm with rfl | hm'
        · exact ltXY_irrefl m.key
        · exact absurd (by simpa using hmp)
            (by simpa using (List.countP_eq_zero.mp hz) m hm')
      · -- recurse into the tail
        have harr : List.countP (fun n => decide (ltXY n.key p)) rest + 1 - 1
            = (List.countP (fun n => decide (ltXY n.key p)) rest - 1) + 1 := by omega
        rw [harr, List.getElem?_cons_succ]
        have hrest : locatePrevNode rest p
            = rest[List.countP (fun n => decide (ltXY n.key p)) rest - 1]? := by
          rw [locatePrev_eq_get rest p habs', if_pos hpos]
        rw [← hrest]
        obtain ⟨ihs, ihn⟩ := ih hn.2 habs'
        refine ⟨fun nd h => ?_, fun h => ?_⟩
        · obtain ⟨hmem, hlt2, hmax⟩ := ihs nd h
          refine ⟨List.mem_cons_of_mem n hmem, hlt2, fun m hm hmp => ?_⟩
          rcases List.mem_cons.mp hm with rfl | hm'
          · exact ltXY_asymm (hn.1 nd hmem)
          · exact hmax m hm' hmp
        · exfalso
          obtain ⟨m, hm, hmp⟩ := List.countP_pos_iff.mp hpos
          exact ihn h m hm (by simpa using hmp)
    · -- head already at or above: nothing smaller exists
      have hpn : ltXY p n.key := (ltXY_total (Ne.symm hnp)).resolve_right hlt
      have hc : List.countP (fun n => decide (ltXY n.key p)) (n :: rest) = 0 := by
        rw [List.countP_eq_zero]
        intro m hm
        rcases List.mem_cons.mp hm with rfl | hm'
        · simpa using hlt
        · simpa using ltXY_asymm (ltXY_trans hpn (hn.1 m hm'))
      rw [hc, if_neg (lt_irrefl 0)]
      refine ⟨fun nd h => by simp at h, fun _ m hm hmp => ?_⟩
      rcases List.mem_cons.mp hm with rfl | hm'
      · exact hlt hmp
      · exact ltXY_asymm (ltXY_trans hpn (hn.1 m hm')) hmp

/-- C10.  On a front sorted strictly by the `(x, y)`-lexicographic key
order and a query point that is not a key of the front,
`locate_next_node` returns the node with the smallest key strictly
greater than the query (`None` if there is none) and `locate_prev_node`
the node with the greatest key strictly smaller (`None` if none):
successor/predecessor navigation behaves as if a deleted node were
absent-but-ordered. -/
theorem c10_locate_next_prev (front : List FrontNode) (p : Pt)
    (hs : List.Pairwise (fun m n => ltXY m.key n.key) front)
    (habs : ∀ n ∈ front, n.key ≠ p) :
    ((∀ nd, locateNextNode front p = some nd →
        nd ∈ front ∧ ltXY p nd.key ∧
        ∀ m ∈ front, ltXY p m.key → ¬ ltXY m.key nd.key) ∧
     (locateNextNode front p = none → ∀ m ∈ front, ¬ ltXY p m.key)) ∧
    ((∀ nd, locatePrevNode front p = some nd →
        nd ∈ front ∧ ltXY nd.key p ∧
        ∀ m ∈ front, ltXY m.key p → ¬ ltXY nd.key m.key) ∧
     (locatePrevNode front p = none → ∀ m ∈ front, ¬ ltXY m.key p)) :=
  ⟨locateNext_spec front p hs habs, locatePrev_spec front p hs habs⟩

/-- Concrete three-node front used as witness data (the front of the
`advancing_front` unit test: keys `(-1,0)`, `(0,3)`, `(1,1)`). -/
def frontW : List FrontNode :=
  [⟨⟨-1, 0⟩, 0, some 0⟩, ⟨⟨0, 3⟩, 1, some 0⟩, ⟨⟨1, 1⟩, 2, none⟩]

/-- C10 witness: the theorem applied to the three-node front and the
absent query point `(-1, 1)`. -/
theorem c10_witness :
    ((∀ nd, locateNextNode frontW ⟨-1, 1⟩ = some nd →
        nd ∈ frontW ∧ ltXY ⟨-1, 1⟩ nd.key ∧
        ∀ m ∈ frontW, ltXY ⟨-1, 1⟩ m.key → ¬ ltXY m.key nd.key) ∧
     (locateNextNode frontW ⟨-1, 1⟩ = none →
        ∀ m ∈ frontW, ¬ ltXY ⟨-1, 1⟩ m.key)) ∧
    ((∀ nd, locatePrevNode frontW ⟨-1, 1⟩ = some nd →
        nd ∈ frontW ∧ ltXY nd.key ⟨-1, 1⟩ ∧
        ∀ m ∈ frontW, ltXY m.key ⟨-1, 1⟩ → ¬ ltXY nd.key m.key) ∧
     (locatePrevNode frontW ⟨-1, 1⟩ = none →
        ∀ m ∈ frontW, ¬ ltXY m.key ⟨-1, 1⟩)) :=
  c10_locate_next_prev frontW ⟨-1, 1⟩ (by decide) (by decide)

/-! Section: `sweeper.rs`: the advancing-front hole-fill walk

`Sweeper::fill_advancing_front` (lines 560-606) walks right from the
just-inserted anchor: while the next node exists and has a further next
node, it breaks if `large_hole_dont_fill(next)` holds and otherwise runs
`fill_one(next)` and advances the cursor to the filled node's point.  The
left walk mirrors it.  `fill_one`'s only effect on the front KEYS is the
deletion of the filled node (it re-inserts `prev` under its unchanged key
and deletes `node`); the triangle bookkeeping it performs does not enter
any decision of the walk, so the walk is modelled at key level. -/

/-- Embeds `Sweeper::large_hole_dont_fill` from `sweeper.rs` lines 608-621:
evaluate the angle at `node_point` between its next and prev front
points; return `false` (fill!) when the angle exceeds 90 degrees; return
`true` (break) when it is negative; return `true` otherwise.  The
fall-back `true` models the source's `unwrap`s, which the walks never
reach (both neighbors exist whenever it is called). -/
def largeHoleDontFill (front : List FrontNode) (nodePoint : Pt) : Bool :=
  match locateNextNode front nodePoint, locatePrevNode front nodePoint with
  | some nx, some pv =>
    if angleExceeds90 nodePoint nx.key pv.key then false
    else if angleIsNegative nodePoint nx.key pv.key then true
    else true
  | _, _ => true

/-- The rightward walk of `Sweeper::fill_advancing_front`
(`sweeper.rs` lines 565-581), returning the key points passed to
`fill_one`, in order.  Fuel-indexed; one fill strictly shrinks the front,
so `front.length` fuel is always enough. -/
def fillRightHoles : ℕ → List FrontNode → Pt → List Pt
  | 0, _, _ => []
  | fuel + 1, front, nodePoint =>
    match locateNextNode front nodePoint with
    | none => []
    | some nextNd =>
      match locateNextNode front nextNd.key with
      | none => []
      | some _ =>
        if largeHoleDontFill front nextNd.key then []
        else nextNd.key :: fillRightHoles fuel (deleteKey front nextNd.key) nextNd.key

/-- Four-node front: anchor `(1,2)` just inserted, candidate `(2,-1)`
with a further next node `(3,3)`; the hole angle at `(2,-1)` is
`atan2(7, 11) ≈ 0.57 ≤ π/2`. -/
def frontAcute : List FrontNode :=
  [⟨⟨0, 0⟩, 0, some 0⟩, ⟨⟨1, 2⟩, 1, some 0⟩, ⟨⟨2, -1⟩, 2, some 1⟩,
   ⟨⟨3, 3⟩, 3, none⟩]

/-- Three-node front: anchor `(0,2)` just inserted, candidate `(4,0)`
with a further next node `(6,3)`; the hole angle at `(4,0)` is
`atan2(16, -2) ≈ 1.70 > π/2`. -/
def frontObtuse : List FrontNode :=
  [⟨⟨0, 2⟩, 0, some 0⟩, ⟨⟨4, 0⟩, 1, some 1⟩, ⟨⟨6, 3⟩, 2, none⟩]

/-- C1 (code bug).  The claim — and the source's own inline comment
"if HoleAngle exceeds 90 degrees then break" — say the walk calls
`fill_one` on the next node exactly while a further next node exists and
the hole angle there is at most `π/2`, stopping at the first node whose
angle exceeds `π/2`.  The code does the opposite:
`large_hole_dont_fill` returns `false` (= fill) precisely when
`exceeds_90_degree()` holds and `true` (= break) otherwise.  On
`frontAcute` the hole angle at `(2,-1)` is `≈ 0.57 ≤ π/2` and a further
next node exists, yet the walk fills nothing; on `frontObtuse` the hole
angle at `(4,0)` is `≈ 1.70 > π/2`, yet the walk fills `(4,0)`. -/
theorem c1_walk_inverts_angle_test :
    (fillRightHoles 4 frontAcute ⟨1, 2⟩ = [] ∧
     (∃ q, locateNextNode frontAcute ⟨1, 2⟩ = some q ∧ q.key = ⟨2, -1⟩ ∧
        (locateNextNode frontAcute q.key).isSome = true ∧
        largeHoleDontFill frontAcute q.key = true) ∧
     angleIsNegative ⟨2, -1⟩ ⟨3, 3⟩ ⟨1, 2⟩ = false ∧
     Complex.arg ⟨(angleDot ⟨2, -1⟩ ⟨3, 3⟩ ⟨1, 2⟩ : ℝ),
        (angleCross ⟨2, -1⟩ ⟨3, 3⟩ ⟨1, 2⟩ : ℝ)⟩ ≤ Real.pi / 2) ∧
    (fillRightHoles 4 frontObtuse ⟨0, 2⟩ = [⟨4, 0⟩] ∧
     Real.pi / 2 < Complex.arg ⟨(angleDot ⟨4, 0⟩ ⟨6, 3⟩ ⟨0, 2⟩ : ℝ),
        (angleCross ⟨4, 0⟩ ⟨6, 3⟩ ⟨0, 2⟩ : ℝ)⟩) := by
  have hcrA : angleCross ⟨2, -1⟩ ⟨3, 3⟩ ⟨1, 2⟩ = 7 := by unfold angleCross; norm_num
  have hdtA : angleDot ⟨2, -1⟩ ⟨3, 3⟩ ⟨1, 2⟩ = 11 := by unfold angleDot; norm_num
  have hexA : angleExceeds90 ⟨2, -1⟩ ⟨3, 3⟩ ⟨1, 2⟩ = false := by
    unfold angleExceeds90
    rw [hcrA, hdtA]
    decide
  have hngA : angleIsNegative ⟨2, -1⟩ ⟨3, 3⟩ ⟨1, 2⟩ = false := by
    unfold angleIsNegative
    rw [hcrA]
    decide
  have hn1 : locateNextNode frontAcute ⟨1, 2⟩ = some ⟨⟨2, -1⟩, 2, some 1⟩ := by decide
  have hn2 : locateNextNode frontAcute ⟨2, -1⟩ = some ⟨⟨3, 3⟩, 3, none⟩ := by decide
  have hp2 : locatePrevNode frontAcute ⟨2, -1⟩ = some ⟨⟨1, 2⟩, 1, some 0⟩ := by decide
  have hLA : largeHoleDontFill frontAcute ⟨2, -1⟩ = true := by
    unfold largeHoleDontFill
    simp [hn2, hp2, hexA, hngA]
  have hwalkA : fillRightHoles 4 frontAcute ⟨1, 2⟩ = [] := by
    simp only [fillRightHoles, hn1, hn2, hLA]
    simp
  -- the obtuse front
  have hcrB : angleCross ⟨4, 0⟩ ⟨6, 3⟩ ⟨0, 2⟩ = 16 := by unfold angleCross; norm_num
  have hdtB : angleDot ⟨4, 0⟩ ⟨6, 3⟩ ⟨0, 2⟩ = -2 := by unfold angleDot; norm_num
  have hexB : angleExceeds90 ⟨4, 0⟩ ⟨6, 3⟩ ⟨0, 2⟩ = true := by
    unfold angleExceeds90
    rw [hcrB, hdtB]
    decide
  have hm1 : locateNextNode frontObtuse ⟨0, 2⟩ = some ⟨⟨4, 0⟩, 1, some 1⟩ := by decide
  have hm2 : locateNextNode frontObtuse ⟨4, 0⟩ = some ⟨⟨6, 3⟩, 2, none⟩ := by decide
  have hq2 : locatePrevNode frontObtuse ⟨4, 0⟩ = some ⟨⟨0, 2⟩, 0, some 0⟩ := by decide
  have hLB : largeHoleDontFill frontObtuse ⟨4, 0⟩ = false := by
    unfold largeHoleDontFill
    simp [hm2, hq2, hexB]
  have hdel : deleteKey frontObtuse ⟨4, 0⟩
      = [⟨⟨0, 2⟩, 0, some 0⟩, ⟨⟨6, 3⟩, 2, none⟩] := by decide
  have hm3 : locateNextNode [(⟨⟨0, 2⟩, 0, some 0⟩ : FrontNode), ⟨⟨6, 3⟩, 2, none⟩] ⟨4, 0⟩
      = some ⟨⟨6, 3⟩, 2, none⟩ := by decide
  have hm4 : locateNextNode [(⟨⟨0, 2⟩, 0, some 0⟩ : FrontNode), ⟨⟨6, 3⟩, 2, none⟩] ⟨6, 3⟩
      = none := by decide
  have hwalkB : fillRightHoles 4 frontObtuse ⟨0, 2⟩ = [⟨4, 0⟩] := by
    simp only [fillRightHoles, hm1, hm2, hLB, hdel, hm3, hm4]
    simp
  refine ⟨⟨hwalkA, ⟨⟨⟨2, -1⟩, 2, some 1⟩, hn1, rfl, by rw [hn2]; rfl, hLA⟩, hngA, ?_⟩,
    hwalkB, ?_⟩
  · exact not_lt.mp (fun hc => by
      have h := (angleExceeds90_iff ⟨2, -1⟩ ⟨3, 3⟩ ⟨1, 2⟩).mpr hc
      rw [hexA] at h
      exact Bool.false_ne_true h)
  · exact (angleExceeds90_iff ⟨4, 0⟩ ⟨6, 3⟩ ⟨0, 2⟩).mp hexB

/-! Section: `sweeper.rs`: the basin qualification test (claim C7) -/

/-- Embeds `TAN_3_4_PI` from `Sweeper::basin_angle_satisfy` (`sweeper.rs`
line 1276): the constant `-1.0`. -/
def tan34Pi : ℚ := -1

/-- The arithmetic tail of `Sweeper::basin_angle_satisfy`
(`sweeper.rs` lines 1285-1289): with `ax, ay` the coordinate differences,
`if ax > 0 { ay < TAN_3_4_PI * ax } else { ay > TAN_3_4_PI * ax }`. -/
def basinTest (ax ay : ℚ) : Bool :=
  if 0 < ax then decide (ay < tan34Pi * ax) else decide (ay > tan34Pi * ax)

/-- Embeds `Sweeper::basin_angle_satisfy` from `sweeper.rs` lines 1275-1290:
`false` when fewer than two next nodes exist, otherwise the `basinTest`
of the differences to the point two nodes to the right. -/
def basinAngleSatisfy (front : List FrontNode) (nodePoint : Pt) : Bool :=
  match locateNextNode front nodePoint with
  | none => false
  | some nx =>
    match locateNextNode front nx.key with
    | none => false
    | some nx2 =>
      basinTest (nodePoint.x - nx2.key.x) (nodePoint.y - nx2.key.y)

/-- C7, counterexample.  The claim states that the qualification test
holds exactly when `ay / ax < -1`; at `ax = 0`, `ay = 1` the code's test
holds (`else` branch: `1 > 0`), while `ay / ax < -1` does not — neither
in exact arithmetic (`1 / 0 = 0` in `ℚ`) nor in IEEE semantics
(`1.0 / 0.0 = +∞`, and `+∞ < -1` is false). -/
theorem c7_counterexample :
    basinTest 0 1 = true ∧ ¬ ((1 : ℚ) / 0 < -1) := by
  constructor
  · unfold basinTest tan34Pi
    rw [if_neg (lt_irrefl 0)]
    norm_num
  · rw [div_zero]
    norm_num

/-- C7, amended.  `basin_angle_satisfy` evaluates the code's test on the
differences to the point two front nodes to the right, and that test is
equivalent to `ay / ax < -1` whenever `ax ≠ 0`; when `ax = 0` the test
is instead `ay > 0`. -/
theorem c7_amended (front : List FrontNode) (p : Pt) (q1 q2 : FrontNode)
    (h1 : locateNextNode front p = some q1)
    (h2 : locateNextNode front q1.key = some q2) :
    basinAngleSatisfy front p = basinTest (p.x - q2.key.x) (p.y - q2.key.y) ∧
    ∀ ax ay : ℚ,
      (ax ≠ 0 → (basinTest ax ay = true ↔ ay / ax < -1)) ∧
      (ax = 0 → (basinTest ax ay = true ↔ 0 < ay)) := by
  constructor
  · unfold basinAngleSatisfy
    simp only [h1, h2]
  · intro ax ay
    constructor
    · intro hne
      rcases lt_trichotomy ax 0 with hneg | hz | hpos
      · unfold basinTest tan34Pi
        rw [if_neg (not_lt.mpr hneg.le)]
        simp only [gt_iff_lt, decide_eq_true_eq]
        rw [div_lt_iff_of_neg hneg]
      · exact absurd hz hne
      · unfold basinTest tan34Pi
        rw [if_pos hpos]
        simp only [decide_eq_true_eq]
        rw [div_lt_iff₀ hpos]
    · rintro rfl
      unfold basinTest tan34Pi
      rw [if_neg (lt_irrefl 0)]
      simp

/-- C7 witness: the amended theorem applied to the three-node front
`frontW` at its leftmost key. -/
theorem c7_witness :
    basinAngleSatisfy frontW ⟨-1, 0⟩
        = basinTest ((-1 : ℚ) - (⟨⟨1, 1⟩, 2, none⟩ : FrontNode).key.x)
            ((0 : ℚ) - (⟨⟨1, 1⟩, 2, none⟩ : FrontNode).key.y) ∧
    ∀ ax ay : ℚ,
      (ax ≠ 0 → (basinTest ax ay = true ↔ ay / ax < -1)) ∧
      (ax = 0 → (basinTest ax ay = true ↔ 0 < ay)) :=
  c7_amended frontW ⟨-1, 0⟩ ⟨⟨0, 3⟩, 1, some 0⟩ ⟨⟨1, 1⟩, 2, none⟩
    (by decide) (by decide)

/-! Subsection: Theorems about `rotate_cw` (claim C8) -/

/-- C8, counterexample.  The claim states that `rotate_cw(o, n)` replaces
`o` by `n`, so that the resulting vertex multiset is the old one with `o`
removed and `n` added.  At the triangle `(1,2,3)` with `o = 1`, `n = 4`
the source (and its own unit test `test_legalize`) produces `[3,1,4]`:
`o = 1` is retained and the counter-clockwise vertex `2` is dropped, so
the resulting multiset differs from the claimed `{2,3,4}`. -/
theorem c8_counterexample :
    rotateCW ⟨1, 2, 3⟩ 1 4 = some ⟨3, 1, 4⟩ ∧
    ∀ r, rotateCW ⟨1, 2, 3⟩ 1 4 = some r →
      r.toMS ≠ (Triple.toMS ⟨1, 2, 3⟩).erase 1 + {4} := by
  decide

/-- C8, amended.  `rotate_cw(o, n)` keeps `o`, replaces the vertex
counter-clockwise of `o` by `n`, and rotates the triple one slot
clockwise: the resulting multiset is the old one with `point_ccw(o)`
removed and `n` added. -/
theorem c8_amended (a b c o n : ℕ) (hab : a ≠ b) (hac : a ≠ c) (hbc : b ≠ c)
    (ho : o = a ∨ o = b ∨ o = c) :
    ∃ w, pointCCW ⟨a, b, c⟩ o = some w ∧
      (o = a → rotateCW ⟨a, b, c⟩ o n = some ⟨c, a, n⟩) ∧
      (o = b → rotateCW ⟨a, b, c⟩ o n = some ⟨n, a, b⟩) ∧
      (o = c → rotateCW ⟨a, b, c⟩ o n = some ⟨c, n, b⟩) ∧
      ∀ r, rotateCW ⟨a, b, c⟩ o n = some r →
        r.toMS = (Triple.toMS ⟨a, b, c⟩).erase w + {n} := by
  rcases ho with ho | ho | ho
  · subst ho
    refine ⟨b, ?_, ?_, ?_, ?_, ?_⟩
    · simp [pointCCW]
    · intro _; simp [rotateCW]
    · intro h; exact absurd h hab
    · intro h; exact absurd h hac
    · intro r hr
      have hre : r = ⟨c, o, n⟩ := by simpa [rotateCW] using hr.symm
      subst hre
      show ({c, o, n} : Multiset ℕ) = ({o, b, c} : Multiset ℕ).erase b + {n}
      rw [show ({o, b, c} : Multiset ℕ) = o ::ₘ b ::ₘ {c} from rfl]
      rw [Multiset.erase_cons_tail _ (by simpa using hab)]
      rw [Multiset.erase_cons_head]
      show c ::ₘ o ::ₘ {n} = (o ::ₘ {c}) + {n}
      simp [Multiset.cons_swap]
  · subst ho
    refine ⟨c, ?_, ?_, ?_, ?_, ?_⟩
    · simp [pointCCW, Ne.symm hab]
    · intro h; exact absurd h.symm hab
    · intro _; simp [rotateCW, Ne.symm hab]
    · intro h; exact absurd h hbc
    · intro r hr
      have hre : r = ⟨n, a, o⟩ := by simpa [rotateCW, Ne.symm hab] using hr.symm
      subst hre
      show ({n, a, o} : Multiset ℕ) = ({a, o, c} : Multiset ℕ).erase c + {n}
      rw [show ({a, o, c} : Multiset ℕ) = a ::ₘ o ::ₘ c ::ₘ 0 from rfl]
      rw [Multiset.erase_cons_tail _ (by simpa using hac)]
      rw [Multiset.erase_cons_tail _ (by simpa using hbc)]
      rw [Multiset.erase_cons_head]
      show n ::ₘ a ::ₘ o ::ₘ 0 = (a ::ₘ o ::ₘ 0) + {n}
      rw [Multiset.cons_swap n a, Multiset.cons_swap n o]
      simp
  · subst ho
    refine ⟨a, ?_, ?_, ?_, ?_, ?_⟩
    · simp [pointCCW, Ne.symm hac, Ne.symm hbc]
    · intro h; exact absurd h.symm hac
    · intro h; exact absurd h.symm hbc
    · intro _; simp [rotateCW, Ne.symm hac, Ne.symm hbc]
    · intro r hr
      have hre : r = ⟨o, n, b⟩ := by
        simpa [rotateCW, Ne.symm hac, Ne.symm hbc] using hr.symm
      subst hre
      show ({o, n, b} : Multiset ℕ) = ({a, b, o} : Multiset ℕ).erase a + {n}
      rw [show ({a, b, o} : Multiset ℕ) = a ::ₘ b ::ₘ o ::ₘ 0 from rfl]
      rw [Multiset.erase_cons_head]
      show o ::ₘ n ::ₘ b ::ₘ 0 = (b ::ₘ o ::ₘ 0) + {n}
      rw [Multiset.cons_swap n b, Multiset.cons_swap o b]
      simp

/-- C8 witness: the amended theorem applied at the concrete triangle
`(1,2,3)` with `o = 1`, `n = 4`. -/
theorem c8_witness :
    ∃ w, pointCCW ⟨1, 2, 3⟩ 1 = some w ∧
      ((1 : ℕ) = 1 → rotateCW ⟨1, 2, 3⟩ 1 4 = some ⟨3, 1, 4⟩) ∧
      ((1 : ℕ) = 2 → rotateCW ⟨1, 2, 3⟩ 1 4 = some ⟨4, 1, 2⟩) ∧
      ((1 : ℕ) = 3 → rotateCW ⟨1, 2, 3⟩ 1 4 = some ⟨3, 4, 2⟩) ∧
      ∀ r, rotateCW ⟨1, 2, 3⟩ 1 4 = some r →
        r.toMS = (Triple.toMS ⟨1, 2, 3⟩).erase w + {4} :=
  c8_amended 1 2 3 1 4 (by decide) (by decide) (by decide) (Or.inl rfl)

/-! Section: `points.rs`: the point store

`Points::into_sorted` sorts the real-point ids with the comparator below
and computes the HEAD/TAIL coordinates from the bounding box; the store
keeps `head`/`tail` in separate fields — no point is appended — and
`get_point` resolves the two reserved identifiers `usize::MAX` (HEAD)
and `usize::MAX - 1` (TAIL) to those fields.  `Vec::sort_by` is a stable
sort; `List.insertionSort` with `leSort` (put `e1` before `e2` unless the
comparator orders `e2.1` strictly before `e1.1`) is a stable sort with
the same contract, and on inputs where the comparator is a strict total
order — as under the pairwise-distinct hypotheses of the claims — the
sorted permutation is unique.  The bounding-box inflation factor `0.3`
is modelled as `3/10`. -/

/-- Embeds `Points::HEAD_ID` from `points.rs`: `PointId(usize::MAX)` (64-bit). -/
def headId : ℕ := 2 ^ 64 - 1

/-- Embeds `Points::TAIL_ID` from `points.rs`: `PointId(usize::MAX - 1)`. -/
def tailId : ℕ := 2 ^ 64 - 2

/-- The point store `points.rs::Points`. -/
structure PointsStore where
  points : List Pt
  ySorted : List ℕ
  head : Pt
  tail : Pt

/-- Embeds `Points::new`: the given points, empty `y_sorted`, default
head/tail. -/
def PointsStore.new (ps : List Pt) : PointsStore := ⟨ps, [], Pt.origin, Pt.origin⟩

/-- The comparator of `Points::into_sorted` (`points.rs` lines 52-67):
ascending `y`, ties by `x`; never returns `Equal` (equal coordinates
compare `Greater`). -/
def cmpPts (p1 p2 : Pt) : Ordering :=
  if p1.y < p2.y then .lt
  else if p1.y = p2.y then
    (if p1.x < p2.x then .lt else .gt)
  else .gt

/-- The strict `(y, x)`-lexicographic order;
`cmpPts p q = .lt ↔ lexYX p q`. -/
def lexYX (p q : Pt) : Prop := p.y < q.y ∨ (p.y = q.y ∧ p.x < q.x)

instance (p q : Pt) : Decidable (lexYX p q) := by
  unfold lexYX; infer_instance

/-- Sort relation modelling `sort_by cmpPts` on the enumerated points. -/
def leSort (e1 e2 : ℕ × Pt) : Prop := cmpPts e2.2 e1.2 ≠ Ordering.lt

instance : DecidableRel leSort := fun e1 e2 => by
  unfold leSort; infer_instance

theorem cmpPts_eq_lt_iff (p q : Pt) : cmpPts p q = .lt ↔ lexYX p q := by
  unfold cmpPts lexYX
  split_ifs with h1 h2 h3
  · exact iff_of_true rfl (Or.inl h1)
  · exact iff_of_true rfl (Or.inr ⟨h2, h3⟩)
  · exact iff_of_false (by decide)
      (by rintro (h | ⟨-, h⟩); exacts [h1 h, h3 h])
  · exact iff_of_false (by decide)
      (by rintro (h | ⟨h, -⟩); exacts [h1 h, h2 h])

theorem leSort_iff (e1 e2 : ℕ × Pt) : leSort e1 e2 ↔ ¬ lexYX e2.2 e1.2 := by
  unfold leSort
  rw [not_iff_not]
  exact cmpPts_eq_lt_iff e2.2 e1.2

theorem lexYX_irrefl (p : Pt) : ¬ lexYX p p := by
  unfold lexYX
  rintro (h | ⟨-, h⟩) <;> exact lt_irrefl _ h

theorem lexYX_trans {p q r : Pt} (h1 : lexYX p q) (h2 : lexYX q r) : lexYX p r := by
  unfold lexYX at *
  rcases h1 with h1 | ⟨he1, h1⟩ <;> rcases h2 with h2 | ⟨he2, h2⟩
  · exact Or.inl (h1.trans h2)
  · exact Or.inl (he2 ▸ h1)
  · exact Or.inl (he1 ▸ h2)
  · exact Or.inr ⟨he1.trans he2, h1.trans h2⟩

theorem lexYX_asymm {p q : Pt} (h1 : lexYX p q) : ¬ lexYX q p :=
  fun h2 => lexYX_irrefl p (lexYX_trans h1 h2)

theorem lexYX_total {p q : Pt} (h : p ≠ q) : lexYX p q ∨ lexYX q p := by
  unfold lexYX
  rcases lt_trichotomy p.y q.y with hy | hy | hy
  · exact Or.inl (Or.inl hy)
  · rcases lt_trichotomy p.x q.x with hx | hx | hx
    · exact Or.inl (Or.inr ⟨hy, hx⟩)
    · exact absurd (by cases p; cases q; simp_all) h
    · exact Or.inr (Or.inr ⟨hy.symm, hx⟩)
  · exact Or.inr (Or.inl hy)

theorem not_lexYX_iff {p q : Pt} : ¬ lexYX q p ↔ (lexYX p q ∨ p = q) := by
  constructor
  · intro h
    by_cases he : p = q
    · exact Or.inr he
    · exact Or.inl ((lexYX_total he).resolve_right h)
  · rintro (h | rfl)
    · exact lexYX_asymm h
    · exact lexYX_irrefl p

instance : IsTotal (ℕ × Pt) leSort := by
  constructor
  intro a b
  rw [leSort_iff, leSort_iff]
  by_contra hc
  push_neg at hc
  obtain ⟨h1, h2⟩ := hc
  exact lexYX_asymm h1 h2

instance : IsTrans (ℕ × Pt) leSort := by
  constructor
  intro a b c hab hbc
  rw [leSort_iff] at *
  rcases not_lexYX_iff.mp hab with h1 | h1 <;> rcases not_lexYX_iff.mp hbc with h2 | h2
  · exact lexYX_asymm (lexYX_trans h1 h2)
  · rw [← h2]
    exact lexYX_asymm h1
  · rw [h1]
    exact lexYX_asymm h2
  · rw [h1, ← h2]
    exact lexYX_irrefl _

/-- Embeds `Points::into_sorted` from `points.rs` lines 44-99: sort the
enumerated real points with `cmpPts`, compute the bounding box (seeded
with `points[0]`, which panics on an empty store — modelled by `none`),
inflate by 30% per axis and place HEAD left-below / TAIL right-below. -/
def intoSorted (s : PointsStore) : Option PointsStore :=
  match s.points with
  | [] => none
  | p0 :: _ =>
    let sortedIds := (List.insertionSort leSort s.points.enum).map Prod.fst
    let xmax := s.points.foldl (fun acc p => max acc p.x) p0.x
    let xmin := s.points.foldl (fun acc p => min acc p.x) p0.x
    let ymax := s.points.foldl (fun acc p => max acc p.y) p0.y
    let ymin := s.points.foldl (fun acc p => min acc p.y) p0.y
    let dx := (xmax - xmin) * (3 / 10)
    let dy := (ymax - ymin) * (3 / 10)
    some ⟨s.points, sortedIds, ⟨xmin - dx, ymin - dy⟩, ⟨xmax + dx, ymin - dy⟩⟩

/-- Embeds `Points::get_point` from `points.rs` lines 120-128: resolve the two
reserved identifiers to the `head`/`tail` fields, others by index. -/
def PointsStore.getPoint (s : PointsStore) (id : ℕ) : Option Pt :=
  if id = headId then some s.head
  else if id = tailId then some s.tail
  else s.points[id]?

/-! Subsection: Theorems about identifier layout (claim C2) -/

/-- C2, counterexample.  The claim says point identifiers form the
contiguous range `0..N` with the two largest — `N-2`, `N-1` — being the
HEAD and TAIL points appended after all real points.  Finalizing a store
of two real points refutes this: identifiers `2` and `3` resolve to no
point at all, while HEAD and TAIL live at the reserved identifiers
`usize::MAX` and `usize::MAX - 1`, held in separate fields rather than
appended. -/
theorem c2_counterexample :
    (intoSorted (PointsStore.new [⟨0, 0⟩, ⟨1, 1⟩])).map
        (fun r => (r.getPoint 2, r.getPoint 3,
          (r.getPoint headId).isSome, (r.getPoint tailId).isSome))
      = some (none, none, true, true) ∧
    headId ≠ 2 ∧ headId ≠ 3 ∧ tailId ≠ 2 ∧ tailId ≠ 3 := by
  refine ⟨?_, by decide, by decide, by decide, by decide⟩
  rfl

/-- C2, amended.  After finalization, the REAL point identifiers form
the contiguous range `0..n` (resolving to the stored points, in input
order); no identifier beyond that range resolves except the two
reserved ones: HEAD at `usize::MAX` and TAIL at `usize::MAX - 1` — the
two largest representable identifiers (`TAIL < HEAD`) — which resolve
to the separately stored super-triangle points, not to appended list
entries. -/
theorem c2_amended (ps : List Pt) (hne : ps ≠ [])
    (hlen : ps.length < 2 ^ 64 - 2) :
    ∃ r, intoSorted (PointsStore.new ps) = some r ∧
      r.points = ps ∧
      (∀ i, i < ps.length → r.getPoint i = ps[i]?) ∧
      (∀ i, ps.length ≤ i → i ≠ headId → i ≠ tailId → r.getPoint i = none) ∧
      r.getPoint headId = some r.head ∧
      r.getPoint tailId = some r.tail ∧
      tailId < headId ∧ headId = 2 ^ 64 - 1 ∧ tailId = 2 ^ 64 - 2 := by
  match hps : ps with
  | [] => exact absurd rfl hne
  | p0 :: rest =>
    refine ⟨_, rfl, rfl, ?_, ?_, ?_, ?_, by decide, rfl, rfl⟩
    · intro i hi
      have hh : headId = 2 ^ 64 - 1 := rfl
      have ht : tailId = 2 ^ 64 - 2 := rfl
      unfold PointsStore.getPoint
      rw [if_neg (by omega), if_neg (by omega)]
      rfl
    · intro i hle hh ht
      unfold PointsStore.getPoint
      rw [if_neg hh, if_neg ht]
      exact List.getElem?_eq_none hle
    · unfold PointsStore.getPoint
      rw [if_pos rfl]
    · unfold PointsStore.getPoint
      rw [if_neg (by decide), if_pos rfl]

/-- C2 witness: the amended theorem applied to a one-point store. -/
theorem c2_witness :
    ∃ r, intoSorted (PointsStore.new [⟨5, 7⟩]) = some r ∧
      r.points = [⟨5, 7⟩] ∧
      (∀ i, i < List.length [(⟨5, 7⟩ : Pt)] → r.getPoint i = [(⟨5, 7⟩ : Pt)][i]?) ∧
      (∀ i, List.length [(⟨5, 7⟩ : Pt)] ≤ i → i ≠ headId → i ≠ tailId →
        r.getPoint i = none) ∧
      r.getPoint headId = some r.head ∧
      r.getPoint tailId = some r.tail ∧
      tailId < headId ∧ headId = 2 ^ 64 - 1 ∧ tailId = 2 ^ 64 - 2 :=
  c2_amended [⟨5, 7⟩] (by decide) (by decide)

/-! Subsection: Theorems about the y-sorted order (claim C5) -/

/-- C5, counterexample.  The claim quantifies over every finite point
set with pairwise-distinct coordinates; for the empty set — vacuously
pairwise-distinct — finalization produces no `y_sorted` list at all: the
bounding-box computation indexes `points[0]` and dies, modelled by
`into_sorted` returning `none`. -/
theorem c5_counterexample :
    List.Pairwise (fun p q : Pt => p ≠ q) [] ∧
    ¬ ∃ r, intoSorted (PointsStore.new []) = some r := by
  refine ⟨List.Pairwise.nil, ?_⟩
  rintro ⟨r, hr⟩
  rw [show intoSorted (PointsStore.new []) = none from rfl] at hr
  exact Option.noConfusion hr

/-- Distinct positions of a coordinate-wise pairwise-distinct list hold
distinct points. -/
theorem pairwise_ne_of_getElem? (ps : List Pt)
    (hdist : ps.Pairwise (fun p q => p ≠ q)) (i j : ℕ) (hij : i ≠ j)
    (a b : Pt) (ha : ps[i]? = some a) (hb : ps[j]? = some b) : a ≠ b := by
  have hi : i < ps.length := by
    by_contra hc
    rw [List.getElem?_eq_none (Nat.le_of_not_lt hc)] at ha
    exact Option.noConfusion ha
  have hj : j < ps.length := by
    by_contra hc
    rw [List.getElem?_eq_none (Nat.le_of_not_lt hc)] at hb
    exact Option.noConfusion hb
  have ha' : ps[i] = a := by
    have := List.getElem?_eq_getElem hi
    rw [this] at ha
    exact Option.some.injEq _ _ ▸ (by simpa using ha)
  have hb' : ps[j] = b := by
    have := List.getElem?_eq_getElem hj
    rw [this] at hb
    exact Option.some.injEq _ _ ▸ (by simpa using hb)
  have hpw := List.pairwise_iff_getElem.mp hdist
  rcases Nat.lt_or_ge i j with h | h
  · exact ha' ▸ hb' ▸ hpw i j hi hj h
  · have hji : j < i := Nat.lt_of_le_of_ne h (Ne.symm hij)
    exact (ha' ▸ hb' ▸ hpw j i hj hi hji).symm

/-- C5, amended.  For every NONEMPTY finite point set with
pairwise-distinct coordinates, the `y_sorted` list produced by
`into_sorted` is exactly the real-point identifiers — a permutation of
`0..n` — ordered primarily by ascending `y`, ties broken by ascending
`x`.  (The empty store is excluded: finalization fails on it, see the
counterexample.) -/
theorem c5_amended (ps : List Pt) (hne : ps ≠ [])
    (hdist : ps.Pairwise (fun p q => p ≠ q)) :
    ∃ r, intoSorted (PointsStore.new ps) = some r ∧
      r.ySorted.Perm (List.range ps.length) ∧
      r.ySorted.Pairwise
        (fun i j => lexYX (ps.getD i Pt.origin) (ps.getD j Pt.origin)) := by
  match hps : ps with
  | [] => exact absurd rfl hne
  | p0 :: rest =>
    refine ⟨_, rfl, ?_, ?_⟩
    · show ((List.insertionSort leSort (p0 :: rest).enum).map Prod.fst).Perm
        (List.range (p0 :: rest).length)
      rw [← List.enum_map_fst (p0 :: rest)]
      exact (List.perm_insertionSort leSort (p0 :: rest).enum).map Prod.fst
    · show ((List.insertionSort leSort (p0 :: rest).enum).map Prod.fst).Pairwise
        (fun i j => lexYX ((p0 :: rest).getD i Pt.origin)
          ((p0 :: rest).getD j Pt.origin))
      rw [List.pairwise_map]
      have hsorted : (List.insertionSort leSort (p0 :: rest).enum).Pairwise leSort :=
        List.sorted_insertionSort leSort (p0 :: rest).enum
      have hnodup : (List.insertionSort leSort (p0 :: rest).enum).Nodup := by
        refine ((List.perm_insertionSort leSort (p0 :: rest).enum).nodup_iff).mpr ?_
        refine List.Nodup.of_map Prod.fst ?_
        rw [List.enum_map_fst]
        exact List.nodup_range _
      refine (hsorted.and hnodup).imp_of_mem ?_
      intro e1 e2 he1 he2 hr
      have hm1 : (p0 :: rest)[e1.1]? = some e1.2 :=
        List.mem_enum_iff_getElem?.mp
          (((List.perm_insertionSort leSort (p0 :: rest).enum).mem_iff).mp he1)
      have hm2 : (p0 :: rest)[e2.1]? = some e2.2 :=
        List.mem_enum_iff_getElem?.mp
          (((List.perm_insertionSort leSort (p0 :: rest).enum).mem_iff).mp he2)
      have hg1 : (p0 :: rest).getD e1.1 Pt.origin = e1.2 := by
        rw [List.getD_eq_getElem?_getD, hm1]
        rfl
      have hg2 : (p0 :: rest).getD e2.1 Pt.origin = e2.2 := by
        rw [List.getD_eq_getElem?_getD, hm2]
        rfl
      rw [hg1, hg2]
      have hne12 : e1.1 ≠ e2.1 := by
        intro hfst
        apply hr.2
        rw [hfst] at hm1
        rw [hm1] at hm2
        have hsnd : e1.2 = e2.2 := Option.some.inj hm2
        cases e1
        cases e2
        simp_all
      have hnep : e1.2 ≠ e2.2 :=
        pairwise_ne_of_getElem? (p0 :: rest) (hps ▸ hdist) e1.1 e2.1 hne12 e1.2 e2.2 hm1 hm2
      exact (not_lexYX_iff.mp ((leSort_iff e1 e2).mp hr.1)).resolve_right hnep

/-- C5 witness: the amended theorem applied to the store of the
`points.rs` unit test `test_points` (four points at `x = 1`,
`y = 1, 2, 5, 3`). -/
theorem c5_witness :
    ∃ r, intoSorted (PointsStore.new [⟨1, 1⟩, ⟨1, 2⟩, ⟨1, 5⟩, ⟨1, 3⟩]) = some r ∧
      r.ySorted.Perm (List.range (List.length [(⟨1, 1⟩ : Pt), ⟨1, 2⟩, ⟨1, 5⟩, ⟨1, 3⟩])) ∧
      r.ySorted.Pairwise
        (fun i j => lexYX ([(⟨1, 1⟩ : Pt), ⟨1, 2⟩, ⟨1, 5⟩, ⟨1, 3⟩].getD i Pt.origin)
          ([(⟨1, 1⟩ : Pt), ⟨1, 2⟩, ⟨1, 5⟩, ⟨1, 3⟩].getD j Pt.origin)) :=
  c5_amended [⟨1, 1⟩, ⟨1, 2⟩, ⟨1, 5⟩, ⟨1, 3⟩] (by decide) (by decide)

/-! Section: `shape.rs::Edge::new` and `sweeper.rs::parse_polyline` -/

/-- A constraint edge of point ids; `p` the lower endpoint, `q` the
higher (`shape.rs::Edge`). -/
structure Edge where
  p : ℕ
  q : ℕ
  deriving DecidableEq, Repr

/-- Embeds `Point::eq` from `shape.rs` lines 52-55: value equality of the two
coordinates. -/
def sameCoord (p q : Pt) : Bool := decide (p.x = q.x ∧ p.y = q.y)

/-- Embeds `Edge::new` from `shape.rs` lines 11-29: start with `p := p1`,
`q := p2` and swap when `p1.y > p2.y`, or on equal `y` when
`p1.x > p2.x`; equal coordinates hit `assert!(false, "repeat points")`,
modelled by `none`. -/
def edgeNew (e1 e2 : ℕ × Pt) : Option Edge :=
  if e1.2.y > e2.2.y then some ⟨e2.1, e1.1⟩
  else if e1.2.y = e2.2.y then
    (if e1.2.x > e2.2.x then some ⟨e2.1, e1.1⟩
     else if e1.2.x = e2.2.x then none
     else some ⟨e1.1, e2.1⟩)
  else some ⟨e1.1, e2.1⟩

/-- The id assignment of `parse_polyline`'s iterator: each point of the
polyline is pushed into the store via `add_point`, receiving consecutive
ids from `startId`. -/
def parsePoints : List Pt → ℕ → List (ℕ × Pt)
  | [], _ => []
  | p :: ps, s => (s, p) :: parsePoints ps (s + 1)

/-- The loop of `parse_polyline` (`sweeper.rs` lines 1438-1451): build an
edge from `last` to each following point, and a closing edge from the
final point back to `first`; `none` propagates the repeat-points
assertion. -/
def parseRest (first : ℕ × Pt) : ℕ × Pt → List (ℕ × Pt) → Option (List Edge)
  | last, [] =>
    match edgeNew last first with
    | none => none
    | some e => some [e]
  | last, p2 :: ps =>
    match edgeNew last p2 with
    | none => none
    | some e =>
      match parseRest first p2 ps with
      | none => none
      | some es => some (e :: es)

/-- Embeds `parse_polyline` from `sweeper.rs` lines 1432-1457. -/
def parsePolyline (polyline : List Pt) (startId : ℕ) : Option (List Edge) :=
  match parsePoints polyline startId with
  | [] => some []
  | first :: rest => parseRest first first rest

/-- Embeds `SweeperBuilder::new(polyline)` followed by `build()` (`sweeper.rs`
lines 71-80 and 112-117): parse the outer polyline into the fresh point
store, then finalize the store; `none` models a fatal failure in either
step. -/
def buildFromPolyline (polyline : List Pt) : Option (List Edge × PointsStore) :=
  match parsePolyline polyline 0 with
  | none => none
  | some es =>
    match intoSorted (PointsStore.new polyline) with
    | none => none
    | some r => some (es, r)

/-- Some cyclically-consecutive pair of the list has equal coordinates
(used with `l ++ [l.head]` to close the cycle). -/
def chainEq : List Pt → Bool
  | [] => false
  | [_] => false
  | p :: q :: rest => sameCoord p q || chainEq (q :: rest)

/-! Subsection: Parse lemmas -/

theorem edgeNew_eq_none_iff (e1 e2 : ℕ × Pt) :
    edgeNew e1 e2 = none ↔ sameCoord e1.2 e2.2 = true := by
  unfold edgeNew sameCoord
  rw [decide_eq_true_eq]
  split_ifs with h1 h2 h3 h4
  · exact iff_of_false (by simp) (fun hc => absurd hc.2 (ne_of_gt h1))
  · exact iff_of_false (by simp) (fun hc => absurd hc.1 (ne_of_gt h3))
  · exact iff_of_true rfl ⟨h4, h2⟩
  · exact iff_of_false (by simp) (fun hc => absurd hc.1 h4)
  · exact iff_of_false (by simp) (fun hc => absurd hc.2 h2)

theorem edgeNew_symm (i j : ℕ) (u v : Pt) (huv : u ≠ v) :
    edgeNew (i, u) (j, v) = edgeNew (j, v) (i, u) := by
  unfold edgeNew
  simp only [gt_iff_lt]
  rcases lt_trichotomy u.y v.y with hy | hy | hy
  · rw [if_neg (not_lt.mpr hy.le), if_neg (ne_of_lt hy), if_pos hy]
  · rw [if_neg (not_lt.mpr hy.le), if_pos hy,
      if_neg (not_lt.mpr hy.ge), if_pos hy.symm]
    rcases lt_trichotomy u.x v.x with hx | hx | hx
    · rw [if_neg (not_lt.mpr hx.le), if_neg (ne_of_lt hx), if_pos hx]
    · exact absurd (by cases u; cases v; simp_all) huv
    · rw [if_pos hx, if_neg (not_lt.mpr hx.le), if_neg (ne_of_lt hx)]
  · rw [if_pos hy, if_neg (not_lt.mpr hy.le), if_neg (ne_of_lt hy)]

theorem edgeNew_isSome (i j : ℕ) (u v : Pt) (huv : u ≠ v) :
    ∃ e, edgeNew (i, u) (j, v) = some e := by
  rcases he : edgeNew (i, u) (j, v) with _ | e
  · exfalso
    have hsc := (edgeNew_eq_none_iff (i, u) (j, v)).mp he
    unfold sameCoord at hsc
    rw [decide_eq_true_eq] at hsc
    exact huv (by cases u; cases v; simp_all)
  · exact ⟨e, rfl⟩

theorem parsePoints_map_snd (ps : List Pt) (s : ℕ) :
    (parsePoints ps s).map Prod.snd = ps := by
  induction ps generalizing s with
  | nil => rfl
  | cons p ps ih =>
    show (p :: (parsePoints ps (s + 1)).map Prod.snd) = p :: ps
    rw [ih (s + 1)]

theorem parseRest_eq_none_iff (first : ℕ × Pt) (last : ℕ × Pt)
    (rest : List (ℕ × Pt)) :
    parseRest first last rest = none ↔
      chainEq (last.2 :: rest.map Prod.snd ++ [first.2]) = true := by
  induction rest generalizing last with
  | nil =>
    show (match edgeNew last first with
      | none => none
      | some e => some [e]) = none ↔ _
    rcases he : edgeNew last first with _ | e
    · simp only [chainEq]
      rw [(edgeNew_eq_none_iff last first).mp he]
      simp
    · have hne : sameCoord last.2 first.2 ≠ true := fun hc =>
        Option.noConfusion (((edgeNew_eq_none_iff last first).mpr hc).symm.trans he)
      simp only [chainEq]
      simp [hne]
  | cons p2 ps ih =>
    have ih2 : ∀ last : ℕ × Pt, parseRest first last ps = none ↔
        chainEq (last.2 :: (ps.map Prod.snd ++ [first.2])) = true := by
      intro last
      rw [ih last]
      simp
    show (match edgeNew last p2 with
      | none => none
      | some e =>
        match parseRest first p2 ps with
        | none => none
        | some es => some (e :: es)) = none ↔ _
    have hlist : (last.2 :: (p2 :: ps).map Prod.snd ++ [first.2])
        = last.2 :: p2.2 :: (ps.map Prod.snd ++ [first.2]) := by simp
    rw [hlist]
    simp only [chainEq]
    rcases he : edgeNew last p2 with _ | e
    · rw [(edgeNew_eq_none_iff last p2).mp he]
      simp
    · have hne : sameCoord last.2 p2.2 = false :=
        Bool.eq_false_iff.mpr (fun hc =>
          Option.noConfusion (((edgeNew_eq_none_iff last p2).mpr hc).symm.trans he))
      rw [hne]
      simp only [Bool.false_or]
      rcases hr : parseRest first p2 ps with _ | es
      · simp [(ih2 p2).mp hr]
      · have hcf : chainEq (p2.2 :: (ps.map Prod.snd ++ [first.2])) ≠ true := fun hc => by
          have h2 := (ih2 p2).mpr hc
          rw [hr] at h2
          exact Option.noConfusion h2
        simp [hcf]

/-! Subsection: Theorems about short polylines (claim C3) -/

/-- C3, counterexample.  The claim says every outer polygon with fewer
than three vertices triangulates to an empty result with no error.  The
one-vertex polygon `[(0,0)]` is fatal already at parse time: the closing
edge joins the vertex to itself and `Edge::new`'s repeat-points
assertion fires; the empty polygon parses but dies in `build()` when
`into_sorted` indexes the empty point vector. -/
theorem c3_counterexample :
    List.length [(⟨0, 0⟩ : Pt)] < 3 ∧
    parsePolyline [⟨0, 0⟩] 0 = none ∧
    buildFromPolyline [⟨0, 0⟩] = none ∧
    parsePolyline ([] : List Pt) 0 = some [] ∧
    buildFromPolyline [] = none := by
  refine ⟨by decide, by decide, rfl, rfl, rfl⟩

/-- C3, amended.  For outer polygons with fewer than three vertices the
build pipeline does NOT produce an empty result without error: the empty
polygon parses to no edges but `build()` fails finalizing the empty
store; a one-vertex polygon is a fatal parse error (repeat-points
assertion on the closing self-edge); a two-vertex polygon with distinct
vertices parses — into two copies of the same normalized edge — and
builds. -/
theorem c3_amended :
    (parsePolyline ([] : List Pt) 0 = some [] ∧ buildFromPolyline [] = none) ∧
    (∀ p : Pt, parsePolyline [p] 0 = none ∧ buildFromPolyline [p] = none) ∧
    (∀ p q : Pt, p ≠ q →
      ∃ e, edgeNew (0, p) (1, q) = some e ∧
        parsePolyline [p, q] 0 = some [e, e] ∧
        (buildFromPolyline [p, q]).isSome = true) := by
  refine ⟨⟨rfl, rfl⟩, ?_, ?_⟩
  · intro p
    have hparse : parsePolyline [p] 0 = none := by
      show (match edgeNew (0, p) (0, p) with
        | none => none
        | some e => some [e]) = none
      rw [(edgeNew_eq_none_iff (0, p) (0, p)).mpr (by unfold sameCoord; simp)]
    refine ⟨hparse, ?_⟩
    unfold buildFromPolyline
    rw [hparse]
  · intro p q hne
    obtain ⟨e, he⟩ := edgeNew_isSome 0 1 p q hne
    have hsym : edgeNew (1, q) (0, p) = some e := by
      rw [edgeNew_symm 1 0 q p (Ne.symm hne), he]
    have hparse : parsePolyline [p, q] 0 = some [e, e] := by
      show parseRest (0, p) (0, p) [(1, q)] = some [e, e]
      show (match edgeNew (0, p) (1, q) with
        | none => none
        | some e2 =>
          match parseRest (0, p) (1, q) [] with
          | none => none
          | some es => some (e2 :: es)) = some [e, e]
      rw [he]
      show (match (match edgeNew (1, q) (0, p) with
          | none => none
          | some e2 => some [e2]) with
        | none => (none : Option (List Edge))
        | some es => some (e :: es)) = some [e, e]
      rw [hsym]
    refine ⟨e, he, hparse, ?_⟩
    unfold buildFromPolyline
    rw [hparse]
    rfl

/-- C3 witness: the two-vertex branch of the amended theorem at
`[(0,0), (1,0)]`. -/
theorem c3_witness :
    ∃ e, edgeNew (0, (⟨0, 0⟩ : Pt)) (1, ⟨1, 0⟩) = some e ∧
      parsePolyline [⟨0, 0⟩, ⟨1, 0⟩] 0 = some [e, e] ∧
      (buildFromPolyline [⟨0, 0⟩, ⟨1, 0⟩]).isSome = true :=
  c3_amended.2.2 ⟨0, 0⟩ ⟨1, 0⟩ (by decide)

/-! Subsection: Theorems about duplicate points (claim C4) -/

/-- C4, counterexample.  The claim says every pair of equal input points
is fatal at polyline parse time.  The polyline
`[(0,0), (1,0), (0,0), (0,1)]` contains the duplicate point `(0,0)` at
positions 0 and 2, yet it parses without error: only CONSECUTIVE equal
points (including the closing last-first pair) reach `Edge::new`'s
repeat-points assertion. -/
theorem c4_counterexample :
    ([(⟨0, 0⟩ : Pt), ⟨1, 0⟩, ⟨0, 0⟩, ⟨0, 1⟩])[0]? = some ⟨0, 0⟩ ∧
    ([(⟨0, 0⟩ : Pt), ⟨1, 0⟩, ⟨0, 0⟩, ⟨0, 1⟩])[2]? = some ⟨0, 0⟩ ∧
    (parsePolyline [⟨0, 0⟩, ⟨1, 0⟩, ⟨0, 0⟩, ⟨0, 1⟩] 0).isSome = true := by
  refine ⟨by decide, by decide, by decide⟩

/-- C4, amended.  A pair of equal input points is fatal at polyline
parse time exactly when the two points are cyclically adjacent in their
polyline (consecutive, or the last and first vertices joined by the
closing edge); other duplicates pass the parser. -/
theorem c4_amended (s : ℕ) :
    parsePolyline ([] : List Pt) s = some [] ∧
    ∀ p : Pt, ∀ ps : List Pt,
      (parsePolyline (p :: ps) s = none ↔ chainEq (p :: ps ++ [p]) = true) := by
  refine ⟨rfl, ?_⟩
  intro p ps
  show parseRest (s, p) (s, p) (parsePoints ps (s + 1)) = none ↔ _
  rw [parseRest_eq_none_iff (s, p) (s, p) (parsePoints ps (s + 1))]
  rw [parsePoints_map_snd ps (s + 1)]

/-- C4 witness: the amended theorem at the polyline
`[(0,0), (1,0), (0,0), (0,1)]` (its duplicate is not adjacent, so the
parse succeeds), instantiated through `mpr`'s contrapositive. -/
theorem c4_witness :
    ¬ parsePolyline [(⟨0, 0⟩ : Pt), ⟨1, 0⟩, ⟨0, 0⟩, ⟨0, 1⟩] 0 = none :=
  fun hc =>
    absurd (((c4_amended 0).2 ⟨0, 0⟩ [⟨1, 0⟩, ⟨0, 0⟩, ⟨0, 1⟩]).mp hc) (by decide)

end P2T
